import Mathlib

/-
Verification development for the distance-vector routing simulator
(src/DistanceVector.py).  The Python program is shallowly embedded:

* `Graph` models the `Graph` class: `net` is the insertion-ordered dict
  from router name to adjacency list (lists of `(neighbor, cost)` pairs,
  mirroring the `Neighbor` objects).
* `Cost` models table costs: a Python int or `float("inf")`.
* The 3-D distance-table state is collapsed to a total function
  `DT : (router, dest, via) ↦ Cost`; in the source every read of a
  `DistanceTable` for the pair `(router, dest)` goes through
  `get_cost`/`table.get(dest, {}).get(via, inf)`, which default absent
  entries to `inf`, and every write in `distance_vector` targets the key
  `(dest, via)` of the table at `(router, dest)`, so the defaulted value
  function carries exactly the observable state.
* `min_cost` (best-route records, `Neighbor(via, cost)` or `None`) is the
  function `MC : (router, dest) ↦ Option (via × Cost)`; array cells that
  do not correspond to routers are `none`.
* `distance_vector` is the convergence loop (source lines 135-196),
  written with explicit fuel equal to the remaining loop iterations of
  `while t < max_iterations`.
-/

set_option maxRecDepth 10000

/-- Lexicographic comparison of char lists by code point, as Python
compares strings; a strict prefix is smaller. -/
def charsLt : List Char → List Char → Bool
  | _, [] => false
  | [], _ :: _ => true
  | a :: as, b :: bs =>
    decide (a.toNat < b.toNat) || (decide (a.toNat = b.toNat) && charsLt as bs)

/-- Python `<` on router names. -/
def strLtb (a b : String) : Bool := charsLt a.data b.data

/-- Python `<=` on router names. -/
def strLeb (a b : String) : Bool := !(strLtb b a)

/-- A table cost: either a Python int or `float("inf")`. -/
inductive Cost where
  | fin : Int → Cost
  | inf : Cost
deriving DecidableEq

/-- Python `<` between costs: every int is below `inf`, and `inf < inf` is false. -/
def Cost.ltb : Cost → Cost → Bool
  | .fin a, .fin b => decide (a < b)
  | .fin _, .inf => true
  | .inf, _ => false

/-- Python `<=` between costs, as the negation of the reversed strict order. -/
def Cost.leb (a b : Cost) : Bool := !(Cost.ltb b a)

/-- The `Graph` class: `net` is the dict from router name to adjacency list. -/
structure Graph where
  net : List (String × List (String × Int))
deriving DecidableEq

/-- `Graph()` constructor: empty dict. -/
def Graph.empty : Graph := ⟨[]⟩

/-- Dict lookup on the ordered association list backing `Graph.net`. -/
def alookup (k : String) : List (String × List (String × Int)) → Option (List (String × Int))
  | [] => none
  | p :: rest => if p.1 = k then some p.2 else alookup k rest

/-- Dict value update in place at key `k` (identity when `k` is absent). -/
def aupd (k : String) (f : List (String × Int) → List (String × Int))
    (l : List (String × List (String × Int))) : List (String × List (String × Int)) :=
  l.map fun p => if p.1 = k then (p.1, f p.2) else p

/-- Dict `del` at key `k`. -/
def adel (k : String) (l : List (String × List (String × Int))) :
    List (String × List (String × Int)) :=
  l.filter fun p => decide (p.1 ≠ k)

/-- `Graph.add_node` (source lines 14-17): insert the router with an empty
adjacency list when absent. -/
def Graph.add_node (g : Graph) (node : String) : Graph :=
  match alookup node g.net with
  | some _ => g
  | none => ⟨g.net ++ [(node, [])]⟩

/-- `Graph.add_edge` (source lines 19-25): unless the weight is the remove
sentinel `-1`, ensure both routers exist and append the entry to both
adjacency lists (a blind append, even when an entry for the pair exists). -/
def Graph.add_edge (g : Graph) (source nb : String) (weight : Int) : Graph :=
  if weight = -1 then g
  else
    let g1 := (g.add_node source).add_node nb
    let net1 := aupd source (fun l => l ++ [(nb, weight)]) g1.net
    let net2 := aupd nb (fun l => l ++ [(source, weight)]) net1
    ⟨net2⟩

/-- The `weight == -1` branch of `Graph.update_edge` (source lines 29-39):
filter the entry out of both adjacency lists, then delete either endpoint
router whose adjacency list is empty. -/
def Graph.removeEdge (g : Graph) (source nb : String) : Graph :=
  let net1 := aupd source (fun l => l.filter fun p => decide (p.1 ≠ nb)) g.net
  let net2 := aupd nb (fun l => l.filter fun p => decide (p.1 ≠ source)) net1
  let net3 := if alookup source net2 = some [] then adel source net2 else net2
  let net4 := if alookup nb net3 = some [] then adel nb net3 else net3
  ⟨net4⟩

/-- `Graph.update_edge` (source lines 27-42): remove on the `-1` sentinel,
otherwise remove then re-add with the new weight. -/
def Graph.update_edge (g : Graph) (source nb : String) (weight : Int) : Graph :=
  if weight = -1 then g.removeEdge source nb
  else (g.removeEdge source nb).add_edge source nb weight

/-- Adjacency list of a router, `[]` when the router is absent. -/
def Graph.adj (g : Graph) (r : String) : List (String × Int) :=
  (alookup r g.net).getD []

/-- Insertion of a string into an ascending list. -/
def insertStr (a : String) : List String → List String
  | [] => [a]
  | b :: bs => if strLeb a b then a :: b :: bs else b :: insertStr a bs

/-- Ascending insertion sort, modelling Python `sorted`. -/
def sortStrs (l : List String) : List String := l.foldr insertStr []

/-- `sorted(net.net.keys())` (source lines 61, 228, 252). -/
def Graph.routersOf (g : Graph) : List String := sortStrs (g.net.map Prod.fst)

/-- The `neighbors_cost` matrix built by `initialize_tables` (source lines
64-78): `-1` encodes "no direct link"; iterating the adjacency list lets a
later duplicate entry overwrite an earlier one. -/
def neighborsCostF (g : Graph) (r v : String) : Int :=
  (g.adj r).foldl (fun acc p => if p.1 = v then p.2 else acc) (-1)

/-- Distance-table state: `(router, dest, via) ↦ cost`, absent entries
reading as `inf`. -/
abbrev DT := String → String → String → Cost

/-- Best-route state: `(router, dest) ↦ Neighbor(via, cost)` or `None`. -/
abbrev MC := String → String → Option (String × Cost)

/-- Fresh distance tables: every entry absent, i.e. `inf`. -/
def initDT : DT := fun _ _ _ => Cost.inf

/-- The `min_cost` matrix built by `initialize_tables` (source lines 64-78):
`Neighbor(router, 0)` on the diagonal, `None` elsewhere. -/
def initMC (R : List String) : MC := fun r d =>
  if r ∈ R ∧ d = r then some (r, Cost.fin 0) else none

/-- One iteration of the `get_min_cost` loop (source lines 85-92): skip the
router itself; take a strictly smaller cost; on a tie at a finite cost
keep the lexicographically smaller via name. -/
def gmcStep (row : String → Cost) (router via : String) (mc : Cost) (mv : Option String) :
    Cost × Option String :=
  if via = router then (mc, mv)
  else
    let c := row via
    if Cost.ltb c mc then (c, some via)
    else
      match mv with
      | some m =>
        if c = mc ∧ c ≠ Cost.inf ∧ strLtb via m = true then (mc, some via)
        else (mc, some m)
      | none => (mc, none)

/-- The accumulator loop of `get_min_cost` (source lines 85-92). -/
def gmcAux (row : String → Cost) (router : String) :
    List String → Cost → Option String → Cost × Option String
  | [], mc, mv => (mc, mv)
  | via :: rest, mc, mv =>
    gmcAux row router rest (gmcStep row router via mc mv).1 (gmcStep row router via mc mv).2

/-- `get_min_cost` (source lines 80-93) applied to the defaulted row
`table.get(dest, {}).get(via, inf)` of one `(router, dest)` table.  The
final `if min_via` Python truthiness test also rejects the empty string. -/
def get_min_cost (row : String → Cost) (router : String) (R : List String) :
    Option (String × Cost) :=
  match gmcAux row router R Cost.inf none with
  | (mc, some v) => if v = "" then none else some (v, mc)
  | (_, none) => none

/-- Invariant of the `get_min_cost` scan over the processed prefix `P` of
the via list: a `None` running via means every processed via still reads
`inf`, and a running via `v` is a processed non-router via whose cost is
the finite minimum of the processed costs, lexicographically smallest
among the processed vias attaining it. -/
def GmcInv (row : String → Cost) (router : String) (P : List String) (mc : Cost)
    (mv : Option String) : Prop :=
  (mv = none → mc = Cost.inf ∧ ∀ u ∈ P, u ≠ router → row u = Cost.inf) ∧
  (∀ v, mv = some v → v ∈ P ∧ v ≠ router ∧ row v = mc ∧ mc ≠ Cost.inf ∧
    (∀ u ∈ P, u ≠ router → Cost.leb mc (row u) = true) ∧
    (∀ u ∈ P, u ≠ router → row u = mc → strLeb v u = true))

/-- Candidate cost written into entry `(router, dest, via)` during one
relaxation round (source lines 159-164): `inf` when there is no direct
link; otherwise the direct cost plus the best known cost from `via` to
`dest`, with `inf` (or a missing best-route record) absorbing the sum. -/
def candidate (nc : String → String → Int) (mc : MC) (r d v : String) : Cost :=
  if nc r v = -1 then Cost.inf
  else
    match mc v d with
    | some p =>
      match p.2 with
      | Cost.fin m => Cost.fin (nc r v + m)
      | Cost.inf => Cost.inf
    | none => Cost.inf

/-- Distance tables after one relaxation round (source lines 154-168): each
in-range entry becomes its candidate cost, everything else is untouched. -/
def stepD (R : List String) (nc : String → String → Int) (mc : MC) (D : DT) : DT :=
  fun r d v =>
    if r ∈ R ∧ d ∈ R ∧ v ∈ R ∧ r ≠ d ∧ v ≠ r then candidate nc mc r d v else D r d v

/-- The `changed` flag of one round (source lines 166-169): some in-range
entry differed from its candidate. -/
def stepChanged (R : List String) (nc : String → String → Int) (mc : MC) (D : DT) : Bool :=
  R.any fun r => R.any fun d =>
    if r = d then false
    else R.any fun v =>
      if v = r then false else decide (D r d v ≠ candidate nc mc r d v)

/-- The `min_cost_new` matrix of one round (source lines 148-152, 171-173):
`Neighbor(router, 0)` on the diagonal, `get_min_cost` on the just-updated
row elsewhere. -/
def stepMC (R : List String) (D : DT) : MC := fun r d =>
  if r ∈ R ∧ d ∈ R then
    if r = d then some (r, Cost.fin 0)
    else get_min_cost (fun v => D r d v) r R
  else none

/-- The `min_cost_changed` flag of one round (source lines 175-181): some
off-diagonal best-route record differs, counting `None` against a record
and differing via or cost as changes. -/
def stepMCChanged (R : List String) (mc mcNew : MC) : Bool :=
  R.any fun r => R.any fun d =>
    if r = d then false else decide (mc r d ≠ mcNew r d)

/-- Result of one `distance_vector` run: final distance tables and
best-route records, the final round counter `t`, whether the loop left by
the convergence `break`, the `changed` flag of the last executed round,
and whether the non-convergence warning was printed. -/
structure DVResult where
  dt : DT
  mc : MC
  t : Nat
  converged : Bool
  lastChanged : Bool
  warned : Bool

/-- The `while t < max_iterations` loop of `distance_vector` (source lines
143-190), with fuel equal to the remaining admissible iterations.  On
`break` the baseline `min_cost` is returned unreplaced, exactly as in the
source, where `min_cost = min_cost_new` runs only after the break check. -/
def dvRunAux (R : List String) (nc : String → String → Int) :
    Nat → DT → MC → Nat → Bool → DVResult
  | 0, D, mc, t, lc => ⟨D, mc, t, false, lc, false⟩
  | fuel + 1, D, mc, t, _ =>
    let D1 := stepD R nc mc D
    let ch := stepChanged R nc mc D
    let mcNew := stepMC R D1
    if stepMCChanged R mc mcNew then dvRunAux R nc fuel D1 mcNew (t + 1) ch
    else ⟨D1, mc, t, true, ch, false⟩

/-- The iteration cap of `distance_vector` (source line 141). -/
def max_iterations : Nat := 1000

/-- `distance_vector(net, routers, router_index)` (source lines 135-196)
run as `main` runs it, with `routers` the sorted key list: initialize the
tables, iterate to the cap, and report the warning when `t` reached the
cap without convergence. -/
def distance_vector (g : Graph) : DVResult :=
  let R := g.routersOf
  let res := dvRunAux R (neighborsCostF g) max_iterations initDT (initMC R) 0 false
  { res with warned := decide (max_iterations ≤ res.t) }

/-- A topology operation of the construction and edit interfaces:
`addRouter`, `addLink`, and `applyEdit` (whose `-1` sentinel is
`removeLink`). -/
inductive TopOp where
  | addNode (r : String)
  | addLink (a b : String) (w : Int)
  | applyEdit (a b : String) (w : Int)

/-- Apply one topology operation. -/
def applyOp (g : Graph) : TopOp → Graph
  | .addNode r => g.add_node r
  | .addLink a b w => g.add_edge a b w
  | .applyEdit a b w => g.update_edge a b w

/-- Apply a sequence of topology operations in order. -/
def applyOps (g : Graph) (ops : List TopOp) : Graph := ops.foldl applyOp g

/-- The mirrored-adjacency invariant: `b` appears in the neighbor set of
`a` with cost `c` exactly when `a` appears in the neighbor set of `b`
with the same cost. -/
def Symm (g : Graph) : Prop :=
  ∀ a b (c : Int), (b, c) ∈ g.adj a ↔ (a, c) ∈ g.adj b

/-- The update batch loop of `main` (source lines 249-250). -/
def applyUpdates (g : Graph) (edits : List (String × String × Int)) : Graph :=
  edits.foldl (fun h e => h.update_edge e.1 e.2.1 e.2.2) g

/-- The second convergence run of `main` (source lines 248-254): apply the
batch of updates and rerun `distance_vector` on the result from scratch. -/
def mainSecondRun (g : Graph) (edits : List (String × String × Int)) : DVResult :=
  distance_vector (applyUpdates g edits)

/-- Modelled from the spec: `carryOverState` (spec section 4.5) is absent
from the code; following the words of the spec, the seeded best-route
structure resets every self-entry to `(self, 0)`, copies the prior record
for router and destination present in both router sets, and leaves every
other entry unreachable. -/
def carryOverState_specModel (oldR newR : List String) (oldMC : MC) : MC := fun r d =>
  if r ∈ newR ∧ d = r then some (r, Cost.fin 0)
  else if r ∈ newR ∧ d ∈ newR ∧ r ∈ oldR ∧ d ∈ oldR then oldMC r d
  else none

/-- Precondition of the amended no-op claim for link removal: each
endpoint, where it appears in the dict at all, stores no link to the
other endpoint and a nonempty adjacency list. -/
def removeNoopPre (g : Graph) (a b : String) : Prop :=
  (∀ p ∈ g.net, p.1 = a → (∀ q ∈ p.2, q.1 ≠ b) ∧ p.2 ≠ []) ∧
  (∀ p ∈ g.net, p.1 = b → (∀ q ∈ p.2, q.1 ≠ a) ∧ p.2 ≠ [])

/-- The three-router line topology of the spec scenarios: routers X, Y, Z
with links X-Y at cost 1 and Y-Z at cost 3. -/
def g3 : Graph :=
  ((((Graph.empty.add_node "X").add_node "Y").add_node "Z").add_edge "X" "Y" 1).add_edge
    "Y" "Z" 3

/-- The spec edit scenario: a new direct link X-Z at cost 1. -/
def g3edit : List (String × String × Int) := [("X", "Z", 1)]

/-- Two `add_edge` calls for the same pair. -/
def gdup : Graph := (Graph.empty.add_edge "A" "B" 2).add_edge "A" "B" 3

/-- A declared router with no links. -/
def gIso : Graph := Graph.empty.add_node "A"

/-- A graph with one link A-C, used to witness the link-removal no-op. -/
def gAC : Graph := Graph.empty.add_edge "A" "C" 5

/-- A concrete distance-table row with one finite entry at via B. -/
def demoRow : String → Cost := fun v => if v = "B" then Cost.fin 5 else Cost.inf

/-- A concrete operation sequence exercising add, remove, and re-add. -/
def demoOps : List TopOp :=
  [TopOp.addLink "A" "B" 2, TopOp.applyEdit "A" "B" (-1), TopOp.addLink "B" "C" 4]

theorem charsLt_trans :
    ∀ a b c : List Char, charsLt a b = true → charsLt b c = true → charsLt a c = true := by
  intro a
  induction a with
  | nil => intro b c h1 h2; cases b <;> cases c <;> simp_all [charsLt]
  | cons x xs ih =>
    intro b c h1 h2
    cases b with
    | nil => simp [charsLt] at h1
    | cons y ys =>
      cases c with
      | nil => simp [charsLt] at h2
      | cons z zs =>
        simp only [charsLt, Bool.or_eq_true, Bool.and_eq_true, decide_eq_true_eq] at h1 h2 ⊢
        rcases h1 with h1 | ⟨e1, r1⟩
        · rcases h2 with h2 | ⟨e2, r2⟩
          · exact Or.inl (Nat.lt_trans h1 h2)
          · exact Or.inl (e2 ▸ h1)
        · rcases h2 with h2 | ⟨e2, r2⟩
          · exact Or.inl (e1 ▸ h2)
          · exact Or.inr ⟨e1.trans e2, ih ys zs r1 r2⟩

theorem charsLt_irrefl : ∀ a : List Char, charsLt a a = false := by
  intro a
  induction a with
  | nil => rfl
  | cons x xs ih => simp [charsLt, ih]

theorem strLtb_trans {a b c : String} (h1 : strLtb a b = true) (h2 : strLtb b c = true) :
    strLtb a c = true :=
  charsLt_trans a.data b.data c.data h1 h2

theorem strLtb_irrefl (a : String) : strLtb a a = false := charsLt_irrefl a.data

theorem strLeb_refl (a : String) : strLeb a a = true := by
  simp [strLeb, strLtb_irrefl]

theorem Cost.ltb_trans {a b c : Cost} (h1 : Cost.ltb a b = true) (h2 : Cost.ltb b c = true) :
    Cost.ltb a c = true := by
  cases a <;> cases b <;> cases c <;> simp_all [Cost.ltb] <;> omega

theorem Cost.ltb_irrefl (a : Cost) : Cost.ltb a a = false := by
  cases a <;> simp [Cost.ltb]

theorem Cost.leb_refl (a : Cost) : Cost.leb a a = true := by
  simp [Cost.leb, Cost.ltb_irrefl]

theorem Cost.ltb_inf_eq {c : Cost} (h : Cost.ltb c Cost.inf = false) : c = Cost.inf := by
  cases c <;> simp_all [Cost.ltb]

theorem Cost.ne_inf_of_ltb {c d : Cost} (h : Cost.ltb c d = true) : c ≠ Cost.inf := by
  cases c <;> simp_all [Cost.ltb]


theorem gmcStep_inv {row : String → Cost} {router : String} {P : List String} {mc : Cost}
    {mv : Option String} (via : String) (h : GmcInv row router P mc mv) :
    GmcInv row router (P ++ [via]) (gmcStep row router via mc mv).1
      (gmcStep row router via mc mv).2 := by
  obtain ⟨hnone, hsome⟩ := h
  by_cases hv : via = router
  · have hstep : gmcStep row router via mc mv = (mc, mv) := by simp [gmcStep, hv]
    rw [hstep]
    show GmcInv row router (P ++ [via]) mc mv
    refine ⟨fun he => ?_, fun v he => ?_⟩
    · obtain ⟨h1, h2⟩ := hnone he
      refine ⟨h1, fun u hu hur => ?_⟩
      rcases List.mem_append.1 hu with hu | hu
      · exact h2 u hu hur
      · rw [List.mem_singleton.1 hu] at hur; exact absurd hv hur
    · obtain ⟨m1, m2, m3, m4, m5, m6⟩ := hsome v he
      refine ⟨List.mem_append.2 (Or.inl m1), m2, m3, m4, fun u hu hur => ?_,
        fun u hu hur hrow => ?_⟩
      · rcases List.mem_append.1 hu with hu | hu
        · exact m5 u hu hur
        · rw [List.mem_singleton.1 hu] at hur; exact absurd hv hur
      · rcases List.mem_append.1 hu with hu | hu
        · exact m6 u hu hur hrow
        · rw [List.mem_singleton.1 hu] at hur; exact absurd hv hur
  · by_cases hlt : Cost.ltb (row via) mc = true
    · have hstep : gmcStep row router via mc mv = (row via, some via) := by
        simp [gmcStep, hv, hlt]
      rw [hstep]
      show GmcInv row router (P ++ [via]) (row via) (some via)
      refine ⟨fun he => by simp at he, fun v he => ?_⟩
      have hvv : via = v := by simpa using he
      subst hvv
      refine ⟨List.mem_append.2 (Or.inr (List.mem_singleton.2 rfl)), hv, rfl,
        Cost.ne_inf_of_ltb hlt, fun u hu hur => ?_, fun u hu hur hrow => ?_⟩
      · rcases List.mem_append.1 hu with hu | hu
        · cases hmv : mv with
          | none =>
            obtain ⟨h1, h2⟩ := hnone hmv
            rw [h2 u hu hur]
            simp [Cost.leb, Cost.ltb]
          | some m =>
            obtain ⟨_, _, _, _, m5, _⟩ := hsome m hmv
            have hle := m5 u hu hur
            simp only [Cost.leb, Bool.not_eq_true'] at hle ⊢
            by_contra hcon
            simp only [Bool.not_eq_false] at hcon
            exact absurd (Cost.ltb_trans hcon hlt) (by simp [hle])
        · rw [List.mem_singleton.1 hu]
          exact Cost.leb_refl _
      · rcases List.mem_append.1 hu with hu | hu
        · cases hmv : mv with
          | none =>
            obtain ⟨h1, h2⟩ := hnone hmv
            have hvinf : row via = Cost.inf := by rw [← hrow]; exact h2 u hu hur
            exact absurd hvinf (Cost.ne_inf_of_ltb hlt)
          | some m =>
            obtain ⟨_, _, _, _, m5, _⟩ := hsome m hmv
            have hle := m5 u hu hur
            rw [hrow] at hle
            simp [Cost.leb, hlt] at hle
        · rw [List.mem_singleton.1 hu]
          exact strLeb_refl _
    · cases hmv : mv with
      | none =>
        subst hmv
        have hstep : gmcStep row router via mc none = (mc, none) := by
          simp [gmcStep, hv, hlt]
        rw [hstep]
        show GmcInv row router (P ++ [via]) mc none
        obtain ⟨h1, h2⟩ := hnone rfl
        refine ⟨fun _ => ⟨h1, fun u hu hur => ?_⟩, fun v he => by simp at he⟩
        rcases List.mem_append.1 hu with hu | hu
        · exact h2 u hu hur
        · rw [List.mem_singleton.1 hu]
          rw [h1] at hlt
          exact Cost.ltb_inf_eq (by simpa using hlt)
      | some m =>
        subst hmv
        obtain ⟨m1, m2, m3, m4, m5, m6⟩ := hsome m rfl
        by_cases htie : row via = mc ∧ row via ≠ Cost.inf ∧ strLtb via m = true
        · have hstep : gmcStep row router via mc (some m) = (mc, some via) := by
            simp only [gmcStep, if_neg hv]
            rw [if_neg hlt, if_pos htie]
          rw [hstep]
          show GmcInv row router (P ++ [via]) mc (some via)
          refine ⟨fun he => by simp at he, fun v he => ?_⟩
          have hvv : via = v := by simpa using he
          subst hvv
          refine ⟨List.mem_append.2 (Or.inr (List.mem_singleton.2 rfl)), hv, htie.1, m4,
            fun u hu hur => ?_, fun u hu hur hrow => ?_⟩
          · rcases List.mem_append.1 hu with hu | hu
            · exact m5 u hu hur
            · rw [List.mem_singleton.1 hu, htie.1]
              exact Cost.leb_refl _
          · rcases List.mem_append.1 hu with hu | hu
            · have hmu := m6 u hu hur hrow
              simp only [strLeb, Bool.not_eq_true'] at hmu ⊢
              by_contra hcon
              simp only [Bool.not_eq_false] at hcon
              exact absurd (strLtb_trans hcon htie.2.2) (by simp [hmu])
            · rw [List.mem_singleton.1 hu]
              exact strLeb_refl _
        · have hstep : gmcStep row router via mc (some m) = (mc, some m) := by
            simp only [gmcStep, if_neg hv]
            rw [if_neg hlt, if_neg htie]
          rw [hstep]
          show GmcInv row router (P ++ [via]) mc (some m)
          refine ⟨fun he => by simp at he, fun v he => ?_⟩
          have hvv : m = v := by simpa using he
          subst hvv
          refine ⟨List.mem_append.2 (Or.inl m1), m2, m3, m4, fun u hu hur => ?_,
            fun u hu hur hrow => ?_⟩
          · rcases List.mem_append.1 hu with hu | hu
            · exact m5 u hu hur
            · rw [List.mem_singleton.1 hu]
              simpa [Cost.leb, Bool.not_eq_true'] using hlt
          · rcases List.mem_append.1 hu with hu | hu
            · exact m6 u hu hur hrow
            · have huv := List.mem_singleton.1 hu
              subst huv
              have hne : strLtb u m ≠ true := fun hcon =>
                htie ⟨hrow, by rw [hrow]; exact m4, hcon⟩
              simpa [strLeb, Bool.not_eq_true'] using hne

theorem gmcAux_inv (row : String → Cost) (router : String) :
    ∀ (L P : List String) (mc : Cost) (mv : Option String),
      GmcInv row router P mc mv →
      GmcInv row router (P ++ L) (gmcAux row router L mc mv).1 (gmcAux row router L mc mv).2 := by
  intro L
  induction L with
  | nil => intro P mc mv h; simpa [gmcAux] using h
  | cons via rest ih =>
    intro P mc mv h
    have h2 := ih (P ++ [via]) _ _ (gmcStep_inv via h)
    simpa [gmcAux, List.append_assoc] using h2

theorem get_min_cost_eq_some {row : String → Cost} {router : String} {R : List String}
    {v : String} {c : Cost} (h : get_min_cost row router R = some (v, c)) :
    v ∈ R ∧ v ≠ router ∧ row v = c ∧ c ≠ Cost.inf ∧
      (∀ u ∈ R, u ≠ router → Cost.leb c (row u) = true) ∧
      (∀ u ∈ R, u ≠ router → row u = c → strLeb v u = true) := by
  have hinv := gmcAux_inv row router R [] Cost.inf none
    ⟨fun _ => ⟨rfl, by simp⟩, fun w hw => by simp at hw⟩
  rw [List.nil_append] at hinv
  rcases haux : gmcAux row router R Cost.inf none with ⟨mc', mv'⟩
  rw [haux] at hinv
  cases mv' with
  | none =>
    have h2 : (none : Option (String × Cost)) = some (v, c) := by
      rw [← h]; unfold get_min_cost; rw [haux]
    simp at h2
  | some w =>
    have h2 : (if w = "" then none else some (w, mc')) = some (v, c) := by
      rw [← h]; unfold get_min_cost; rw [haux]
    by_cases hw : w = ""
    · rw [if_pos hw] at h2; simp at h2
    · rw [if_neg hw] at h2
      injection Option.some.inj h2 with h3 h4
      subst h3; subst h4
      obtain ⟨m1, m2, m3, m4, m5, m6⟩ := hinv.2 w rfl
      exact ⟨m1, m2, m3, m4, m5, m6⟩

theorem get_min_cost_eq_none {row : String → Cost} {router : String} {R : List String}
    (hR : "" ∉ R) (h : get_min_cost row router R = none) :
    ∀ u ∈ R, u ≠ router → row u = Cost.inf := by
  have hinv := gmcAux_inv row router R [] Cost.inf none
    ⟨fun _ => ⟨rfl, by simp⟩, fun w hw => by simp at hw⟩
  rw [List.nil_append] at hinv
  rcases haux : gmcAux row router R Cost.inf none with ⟨mc', mv'⟩
  rw [haux] at hinv
  cases mv' with
  | none => exact (hinv.1 rfl).2
  | some w =>
    by_cases hw : w = ""
    · obtain ⟨m1, _⟩ := hinv.2 w rfl
      rw [hw] at m1
      exact absurd m1 hR
    · have h2 : get_min_cost row router R = if w = "" then none else some (w, mc') := by
        unfold get_min_cost; rw [haux]
      rw [h, if_neg hw] at h2
      simp at h2

theorem stepMCChanged_false {R : List String} {mc mcNew : MC}
    (h : stepMCChanged R mc mcNew = false) :
    ∀ r ∈ R, ∀ d ∈ R, r ≠ d → mc r d = mcNew r d := by
  intro r hr d hd hne
  by_contra hcon
  have htrue : stepMCChanged R mc mcNew = true := by
    simp only [stepMCChanged, List.any_eq_true]
    exact ⟨r, hr, d, hd, by rw [if_neg hne]; exact decide_eq_true hcon⟩
  rw [h] at htrue
  exact absurd htrue (by simp)

theorem stepD_eq_candidate {R : List String} {nc : String → String → Int} {mc : MC} {D : DT}
    {r d v : String} (hr : r ∈ R) (hd : d ∈ R) (hv : v ∈ R) (hrd : r ≠ d) (hvr : v ≠ r) :
    stepD R nc mc D r d v = candidate nc mc r d v := by
  simp [stepD, hr, hd, hv, hrd, hvr]

theorem stepD_idem (R : List String) (nc : String → String → Int) (mc : MC) (D : DT) :
    stepD R nc mc (stepD R nc mc D) = stepD R nc mc D := by
  funext r d v
  by_cases h : r ∈ R ∧ d ∈ R ∧ v ∈ R ∧ r ≠ d ∧ v ≠ r
  · simp [stepD, h]
  · simp [stepD, h]

theorem stepChanged_stepD_false (R : List String) (nc : String → String → Int) (mc : MC)
    (D : DT) : stepChanged R nc mc (stepD R nc mc D) = false := by
  rw [Bool.eq_false_iff]
  intro hcon
  simp only [stepChanged, List.any_eq_true] at hcon
  obtain ⟨r, hr, d, hd, hrd⟩ := hcon
  by_cases hne : r = d
  · rw [if_pos hne] at hrd; exact absurd hrd (by simp)
  · rw [if_neg hne] at hrd
    simp only [List.any_eq_true] at hrd
    obtain ⟨v, hv, hvr⟩ := hrd
    by_cases hvne : v = r
    · rw [if_pos hvne] at hvr; exact absurd hvr (by simp)
    · rw [if_neg hvne] at hvr
      rw [stepD_eq_candidate hr hd hv hne hvne] at hvr
      simp at hvr

theorem dvRunAux_t (R : List String) (nc : String → String → Int) :
    ∀ (fuel : Nat) (D : DT) (mc : MC) (t : Nat) (lc : Bool),
      (dvRunAux R nc fuel D mc t lc).t ≤ t + fuel ∧
      ((dvRunAux R nc fuel D mc t lc).converged = true →
        (dvRunAux R nc fuel D mc t lc).t < t + fuel) ∧
      ((dvRunAux R nc fuel D mc t lc).converged = false →
        (dvRunAux R nc fuel D mc t lc).t = t + fuel) := by
  intro fuel
  induction fuel with
  | zero => intro D mc t lc; simp [dvRunAux]
  | succ n ih =>
    intro D mc t lc
    simp only [dvRunAux]
    by_cases hch : stepMCChanged R mc (stepMC R (stepD R nc mc D)) = true
    · rw [if_pos hch]
      obtain ⟨a, b, c⟩ :=
        ih (stepD R nc mc D) (stepMC R (stepD R nc mc D)) (t + 1) (stepChanged R nc mc D)
      refine ⟨by omega, fun h => ?_, fun h => ?_⟩
      · have := b h; omega
      · have := c h; omega
    · rw [if_neg hch]
      refine ⟨?_, fun _ => ?_, fun h => ?_⟩
      · show t ≤ t + (n + 1); omega
      · show t < t + (n + 1); omega
      · simp at h

theorem dvRunAux_converged_post (R : List String) (nc : String → String → Int) :
    ∀ (fuel : Nat) (D : DT) (mc : MC) (t : Nat) (lc : Bool),
      (dvRunAux R nc fuel D mc t lc).converged = true →
      ∃ D0, (dvRunAux R nc fuel D mc t lc).dt = stepD R nc (dvRunAux R nc fuel D mc t lc).mc D0 ∧
        stepMCChanged R (dvRunAux R nc fuel D mc t lc).mc
          (stepMC R (stepD R nc (dvRunAux R nc fuel D mc t lc).mc D0)) = false := by
  intro fuel
  induction fuel with
  | zero => intro D mc t lc h; simp [dvRunAux] at h
  | succ n ih =>
    intro D mc t lc h
    simp only [dvRunAux] at h ⊢
    by_cases hch : stepMCChanged R mc (stepMC R (stepD R nc mc D)) = true
    · rw [if_pos hch] at h ⊢
      exact ih (stepD R nc mc D) (stepMC R (stepD R nc mc D)) (t + 1) (stepChanged R nc mc D) h
    · rw [if_neg hch] at h ⊢
      exact ⟨D, rfl, by rw [Bool.eq_false_iff]; exact hch⟩

theorem distance_vector_fields (g : Graph) :
    (distance_vector g).dt =
        (dvRunAux g.routersOf (neighborsCostF g) max_iterations initDT (initMC g.routersOf)
          0 false).dt ∧
      (distance_vector g).mc =
        (dvRunAux g.routersOf (neighborsCostF g) max_iterations initDT (initMC g.routersOf)
          0 false).mc ∧
      (distance_vector g).t =
        (dvRunAux g.routersOf (neighborsCostF g) max_iterations initDT (initMC g.routersOf)
          0 false).t ∧
      (distance_vector g).converged =
        (dvRunAux g.routersOf (neighborsCostF g) max_iterations initDT (initMC g.routersOf)
          0 false).converged ∧
      (distance_vector g).warned =
        decide (max_iterations ≤
          (dvRunAux g.routersOf (neighborsCostF g) max_iterations initDT (initMC g.routersOf)
            0 false).t) := by
  exact ⟨rfl, rfl, rfl, rfl, rfl⟩

theorem distance_vector_converged_post (g : Graph)
    (h : (distance_vector g).converged = true) :
    ∃ D0, (distance_vector g).dt = stepD g.routersOf (neighborsCostF g) (distance_vector g).mc D0 ∧
      stepMCChanged g.routersOf (distance_vector g).mc
        (stepMC g.routersOf
          (stepD g.routersOf (neighborsCostF g) (distance_vector g).mc D0)) = false := by
  obtain ⟨h1, h2, _, h4, _⟩ := distance_vector_fields g
  rw [h4] at h
  obtain ⟨D0, hdt, hmc⟩ :=
    dvRunAux_converged_post g.routersOf (neighborsCostF g) max_iterations initDT
      (initMC g.routersOf) 0 false h
  exact ⟨D0, by rw [h1, h2]; exact hdt, by rw [h2]; exact hmc⟩

/-- Claim C1, counterexample: on the three-router line topology of the spec
the engine declares convergence (`converged = true`) in a round in which
raw DistanceTable entries still changed (`changed = true` in the terminal
round), refuting "it never declares convergence in a round in which some
raw DistanceTable entry still changed". -/
theorem claim_C1_counterexample :
    (distance_vector g3).converged = true ∧ (distance_vector g3).lastChanged = true := by
  constructor <;> decide

/-- Claim C1, amended: the engine declares convergence exactly when no
best-route record differs from the previous round records; the raw-entry
`changed` flag is computed but never consulted by the break test, so a
converged terminal round has `min_cost_changed = false` while its raw
entries may have changed. -/
theorem claim_C1_amended (g : Graph) (h : (distance_vector g).converged = true) :
    stepMCChanged g.routersOf (distance_vector g).mc
      (stepMC g.routersOf (distance_vector g).dt) = false := by
  obtain ⟨D0, hdt, hmc⟩ := distance_vector_converged_post g h
  rw [hdt]
  exact hmc

/-- Witness for the amended claim C1 at the three-router line topology. -/
theorem claim_C1_amended_witness :
    (distance_vector g3).converged = true ∧
      stepMCChanged g3.routersOf (distance_vector g3).mc
        (stepMC g3.routersOf (distance_vector g3).dt) = false :=
  ⟨by decide, claim_C1_amended g3 (by decide)⟩

/-- Claim C2: on every topology on which the run reports convergence, every
finite converged best cost satisfies the Bellman equation: it is attained
by some via-neighbor candidate and bounds every via-neighbor candidate
from below, where a candidate is direct-link-cost plus the converged best
cost of the via (with no direct link or an infinite/missing downstream
cost yielding an infinite candidate, per `candidate`). -/
theorem claim_C2 (g : Graph) (r d v : String) (c : Int)
    (h : (distance_vector g).converged = true)
    (hr : r ∈ g.routersOf) (hd : d ∈ g.routersOf) (hrd : r ≠ d)
    (hmc : (distance_vector g).mc r d = some (v, Cost.fin c)) :
    (∃ via ∈ g.routersOf, via ≠ r ∧
        candidate (neighborsCostF g) (distance_vector g).mc r d via = Cost.fin c) ∧
      ∀ via ∈ g.routersOf, via ≠ r →
        Cost.leb (Cost.fin c)
          (candidate (neighborsCostF g) (distance_vector g).mc r d via) = true := by
  obtain ⟨D0, hdt, hstep⟩ := distance_vector_converged_post g h
  have hpoint := stepMCChanged_false hstep r hr d hd hrd
  rw [hmc] at hpoint
  have hsm : stepMC g.routersOf
        (stepD g.routersOf (neighborsCostF g) (distance_vector g).mc D0) r d =
      get_min_cost
        (fun u => stepD g.routersOf (neighborsCostF g) (distance_vector g).mc D0 r d u) r
        g.routersOf := by
    simp [stepMC, hr, hd, hrd]
  rw [hsm] at hpoint
  obtain ⟨m1, m2, m3, m4, m5, m6⟩ := get_min_cost_eq_some hpoint.symm
  constructor
  · exact ⟨v, m1, m2, by rw [← stepD_eq_candidate hr hd m1 hrd m2]; exact m3⟩
  · intro via hvia hvr
    have hle := m5 via hvia hvr
    rw [stepD_eq_candidate hr hd hvia hrd hvr] at hle
    exact hle

/-- Witness for claim C2: on the converged line topology the best route
X to Z is via Y at cost 4, and 4 is the attained minimum of the Bellman
candidates of X over the vias. -/
theorem claim_C2_witness :
    (distance_vector g3).converged = true ∧
      "X" ∈ g3.routersOf ∧ "Z" ∈ g3.routersOf ∧ "X" ≠ "Z" ∧
      (distance_vector g3).mc "X" "Z" = some ("Y", Cost.fin 4) ∧
      ((∃ via ∈ g3.routersOf, via ≠ "X" ∧
          candidate (neighborsCostF g3) (distance_vector g3).mc "X" "Z" via = Cost.fin 4) ∧
        ∀ via ∈ g3.routersOf, via ≠ "X" →
          Cost.leb (Cost.fin 4)
            (candidate (neighborsCostF g3) (distance_vector g3).mc "X" "Z" via) = true) :=
  ⟨by decide, by decide, by decide, by decide, by decide,
    claim_C2 g3 "X" "Z" "Y" 4 (by decide) (by decide) (by decide) (by decide) (by decide)⟩

/-- Claim C6: for every row contents, the route selector returns a via of
minimum stored cost: a returned via is a non-router member of the list
whose stored cost is the returned cost, the returned cost is finite, is a
lower bound of all via costs, and the returned via is lexicographically
least among the vias attaining it; when nothing is returned every via
cost is infinite.  The selector is a pure function of the row contents
and router list, so determinism is immediate. -/
theorem claim_C6 (row : String → Cost) (router : String) (R : List String)
    (hR : "" ∉ R) :
    (∀ v c, get_min_cost row router R = some (v, c) →
        v ∈ R ∧ v ≠ router ∧ row v = c ∧ c ≠ Cost.inf ∧
          (∀ u ∈ R, u ≠ router → Cost.leb c (row u) = true) ∧
          (∀ u ∈ R, u ≠ router → row u = c → strLeb v u = true)) ∧
      (get_min_cost row router R = none → ∀ u ∈ R, u ≠ router → row u = Cost.inf) :=
  ⟨fun _ _ h => get_min_cost_eq_some h, fun h => get_min_cost_eq_none hR h⟩

/-- Witness for claim C6 at a concrete row with one finite entry. -/
theorem claim_C6_witness :
    ("" ∉ ["A", "B", "C"]) ∧
      ((∀ v c, get_min_cost demoRow "A" ["A", "B", "C"] = some (v, c) →
          v ∈ ["A", "B", "C"] ∧ v ≠ "A" ∧ demoRow v = c ∧ c ≠ Cost.inf ∧
            (∀ u ∈ ["A", "B", "C"], u ≠ "A" → Cost.leb c (demoRow u) = true) ∧
            (∀ u ∈ ["A", "B", "C"], u ≠ "A" → demoRow u = c → strLeb v u = true)) ∧
        (get_min_cost demoRow "A" ["A", "B", "C"] = none →
          ∀ u ∈ ["A", "B", "C"], u ≠ "A" → demoRow u = Cost.inf)) :=
  ⟨by decide, claim_C6 demoRow "A" ["A", "B", "C"] (by decide)⟩

/-- Claim C7: every run executes at most `max_iterations = 1000` rounds
(the returned counter never exceeds the cap), a run that does not
converge stops with the counter exactly at the cap instead of looping or
raising, and the non-fatal warning is reported exactly on non-converged
runs while the last computed tables are returned in the same structure
either way. -/
theorem claim_C7 (g : Graph) :
    (distance_vector g).t ≤ max_iterations ∧
      ((distance_vector g).converged = true ∨ (distance_vector g).t = max_iterations) ∧
      (distance_vector g).warned = !(distance_vector g).converged := by
  obtain ⟨_, _, ht, hcv, hw⟩ := distance_vector_fields g
  obtain ⟨a, b, c⟩ :=
    dvRunAux_t g.routersOf (neighborsCostF g) max_iterations initDT (initMC g.routersOf) 0
      false
  rw [ht, hcv, hw]
  cases hcase : (dvRunAux g.routersOf (neighborsCostF g) max_iterations initDT
      (initMC g.routersOf) 0 false).converged with
  | false =>
    have he := c hcase
    refine ⟨by omega, Or.inr (by omega), ?_⟩
    rw [he]
    simp
  | true =>
    have hl := b hcase
    refine ⟨by omega, Or.inl rfl, ?_⟩
    simp only [Bool.not_true, decide_eq_false_iff_not, Nat.not_le]
    omega

/-- Claim C8: on every converged run, one additional relaxation round from
the returned state produces zero changed DistanceTable entries
(`changed = false`) and zero changed best-route records
(`min_cost_changed = false`). -/
theorem claim_C8 (g : Graph) (h : (distance_vector g).converged = true) :
    stepChanged g.routersOf (neighborsCostF g) (distance_vector g).mc (distance_vector g).dt
        = false ∧
      stepMCChanged g.routersOf (distance_vector g).mc
        (stepMC g.routersOf
          (stepD g.routersOf (neighborsCostF g) (distance_vector g).mc
            (distance_vector g).dt)) = false := by
  obtain ⟨D0, hdt, hmc⟩ := distance_vector_converged_post g h
  constructor
  · rw [hdt]
    exact stepChanged_stepD_false _ _ _ _
  · rw [hdt, stepD_idem]
    exact hmc

/-- Witness for claim C8 at the three-router line topology. -/
theorem claim_C8_witness :
    (distance_vector g3).converged = true ∧
      (stepChanged g3.routersOf (neighborsCostF g3) (distance_vector g3).mc
          (distance_vector g3).dt = false ∧
        stepMCChanged g3.routersOf (distance_vector g3).mc
          (stepMC g3.routersOf
            (stepD g3.routersOf (neighborsCostF g3) (distance_vector g3).mc
              (distance_vector g3).dt)) = false) :=
  ⟨by decide, claim_C8 g3 (by decide)⟩

theorem alookup_append_of_some {k : String} {l1 : List (String × List (String × Int))}
    {v : List (String × Int)} (h : alookup k l1 = some v)
    (l2 : List (String × List (String × Int))) : alookup k (l1 ++ l2) = some v := by
  induction l1 with
  | nil => simp [alookup] at h
  | cons p rest ih =>
    by_cases hp : p.1 = k
    · rw [alookup, if_pos hp] at h
      rw [List.cons_append, alookup, if_pos hp]
      exact h
    · rw [alookup, if_neg hp] at h
      rw [List.cons_append, alookup, if_neg hp]
      exact ih h

theorem alookup_append_of_none {k : String} {l1 : List (String × List (String × Int))}
    (h : alookup k l1 = none) (l2 : List (String × List (String × Int))) :
    alookup k (l1 ++ l2) = alookup k l2 := by
  induction l1 with
  | nil => simp [alookup]
  | cons p rest ih =>
    by_cases hp : p.1 = k
    · rw [alookup, if_pos hp] at h
      simp at h
    · rw [alookup, if_neg hp] at h
      rw [List.cons_append, alookup, if_neg hp]
      exact ih h

theorem alookup_aupd (k x : String) (f : List (String × Int) → List (String × Int)) :
    ∀ l, alookup x (aupd k f l) = if x = k then (alookup x l).map f else alookup x l := by
  intro l
  induction l with
  | nil => simp [alookup, aupd]
  | cons p rest ih =>
    by_cases h1 : p.1 = k
    · by_cases h2 : p.1 = x
      · have hxk : x = k := by rw [← h2, h1]
        rw [aupd, List.map_cons, if_pos h1]
        rw [alookup, if_pos h2]
        rw [if_pos hxk, alookup, if_pos h2]
        rfl
      · have hrest : alookup x (aupd k f rest) = alookup x ((p.1, f p.2) :: aupd k f rest) := by
          rw [alookup, if_neg h2]
        rw [aupd, List.map_cons, if_pos h1, ← aupd, ← hrest, ih]
        rw [alookup, if_neg h2]
    · by_cases h2 : p.1 = x
      · have hxk : ¬x = k := fun hc => h1 (h2.trans hc)
        rw [aupd, List.map_cons, if_neg h1, ← aupd]
        rw [alookup, if_pos h2, alookup, if_pos h2]
        rw [if_neg hxk]
      · rw [aupd, List.map_cons, if_neg h1, ← aupd]
        rw [alookup, if_neg h2, ih]
        rw [alookup, if_neg h2]

theorem alookup_adel (k x : String) :
    ∀ l, alookup x (adel k l) = if x = k then none else alookup x l := by
  intro l
  induction l with
  | nil => simp [alookup, adel]
  | cons p rest ih =>
    by_cases h1 : p.1 = k
    · have h2 : ¬(p.1 ≠ k) := by simpa using h1
      rw [adel, List.filter_cons, if_neg (by simpa using h2), ← adel, ih]
      by_cases hxk : x = k
      · rw [if_pos hxk, if_pos hxk]
      · rw [if_neg hxk, if_neg hxk, alookup, if_neg (by rw [h1]; exact fun hc => hxk hc.symm)]
    · rw [adel, List.filter_cons, if_pos (by simpa using h1), ← adel]
      by_cases h2 : p.1 = x
      · have hxk : ¬x = k := fun hc => h1 (by rw [h2, hc])
        rw [alookup, if_pos h2, if_neg hxk, alookup, if_pos h2]
      · rw [alookup, if_neg h2, ih]
        by_cases hxk : x = k
        · rw [if_pos hxk, if_pos hxk]
        · rw [if_neg hxk, if_neg hxk, alookup, if_neg h2]

theorem adj_eq_of_alookup_some {g : Graph} {x : String} {l : List (String × Int)}
    (h : alookup x g.net = some l) : g.adj x = l := by
  simp [Graph.adj, h]

theorem alookup_add_node_self (g : Graph) (r : String) :
    alookup r (g.add_node r).net = some (g.adj r) := by
  unfold Graph.add_node
  cases h : alookup r g.net with
  | some l => simpa [adj_eq_of_alookup_some h] using h
  | none =>
    show alookup r (g.net ++ [(r, [])]) = some (g.adj r)
    rw [alookup_append_of_none h, Graph.adj, h]
    simp [alookup]

theorem alookup_add_node_of_some {g : Graph} {x : String} {l : List (String × Int)}
    (h : alookup x g.net = some l) (r : String) : alookup x (g.add_node r).net = some l := by
  unfold Graph.add_node
  cases h2 : alookup r g.net with
  | some l2 => exact h
  | none => exact alookup_append_of_some h _

theorem adj_add_node (g : Graph) (r x : String) : (g.add_node r).adj x = g.adj x := by
  unfold Graph.add_node
  cases h : alookup r g.net with
  | some l => rfl
  | none =>
    show (alookup x (g.net ++ [(r, [])])).getD [] = g.adj x
    cases h2 : alookup x g.net with
    | some l2 => rw [alookup_append_of_some h2, Graph.adj, h2]
    | none =>
      rw [alookup_append_of_none h2, Graph.adj, h2]
      by_cases hx : r = x
      · simp [alookup, hx]
      · simp [alookup, hx]

theorem adj_add_edge (g : Graph) (s n x : String) (w : Int) (hw : w ≠ -1) :
    (g.add_edge s n w).adj x =
      (if x = n then (· ++ [(s, w)]) else id)
        ((if x = s then (· ++ [(n, w)]) else id) (g.adj x)) := by
  unfold Graph.add_edge
  rw [if_neg hw]
  have hs : alookup s ((g.add_node s).add_node n).net = some (g.adj s) :=
    alookup_add_node_of_some (alookup_add_node_self g s) n
  have hn : alookup n ((g.add_node s).add_node n).net = some (g.adj n) := by
    have := alookup_add_node_self (g.add_node s) n
    rwa [adj_add_node] at this
  show (alookup x (aupd n (fun l => l ++ [(s, w)])
        (aupd s (fun l => l ++ [(n, w)]) ((g.add_node s).add_node n).net))).getD [] =
      (if x = n then (· ++ [(s, w)]) else id)
        ((if x = s then (· ++ [(n, w)]) else id) (g.adj x))
  rw [alookup_aupd, alookup_aupd]
  by_cases hxn : x = n <;> by_cases hxs : x = s
  · rw [if_pos hxn, if_pos hxs, if_pos hxn, if_pos hxs]
    subst hxn; subst hxs
    rw [hs]
    simp
  · rw [if_pos hxn, if_neg hxs, if_pos hxn, if_neg hxs]
    subst hxn
    rw [hn]
    simp
  · rw [if_neg hxn, if_pos hxs, if_neg hxn, if_pos hxs]
    subst hxs
    rw [hs]
    simp
  · rw [if_neg hxn, if_neg hxs, if_neg hxn, if_neg hxs]
    have h1 : (alookup x ((g.add_node s).add_node n).net).getD [] =
        ((g.add_node s).add_node n).adj x := rfl
    rw [h1, adj_add_node, adj_add_node]
    rfl

theorem alookup_cond_del_other {k x : String} (hx : x ≠ k)
    (net : List (String × List (String × Int))) :
    alookup x (if alookup k net = some [] then adel k net else net) = alookup x net := by
  by_cases h : alookup k net = some []
  · rw [if_pos h, alookup_adel, if_neg hx]
  · rw [if_neg h]

theorem adj_cond_del (k x : String) (net : List (String × List (String × Int))) :
    (Graph.mk (if alookup k net = some [] then adel k net else net)).adj x =
      (Graph.mk net).adj x := by
  by_cases h : alookup k net = some []
  · show (alookup x (if alookup k net = some [] then adel k net else net)).getD [] = _
    rw [if_pos h, alookup_adel]
    by_cases hx : x = k
    · rw [if_pos hx]
      subst hx
      show ([] : List (String × Int)) = (Graph.mk net).adj x
      rw [Graph.adj, h]
      rfl
    · rw [if_neg hx]
      rfl
  · show (alookup x (if alookup k net = some [] then adel k net else net)).getD [] = _
    rw [if_neg h]
    rfl

theorem adj_removeEdge (g : Graph) (s n x : String) :
    (g.removeEdge s n).adj x =
      (if x = n then List.filter (fun p => decide (p.1 ≠ s)) else id)
        ((if x = s then List.filter (fun p => decide (p.1 ≠ n)) else id) (g.adj x)) := by
  unfold Graph.removeEdge
  rw [adj_cond_del, adj_cond_del]
  show (alookup x (aupd n (fun l => l.filter fun p => decide (p.1 ≠ s))
        (aupd s (fun l => l.filter fun p => decide (p.1 ≠ n)) g.net))).getD [] =
      (if x = n then List.filter (fun p => decide (p.1 ≠ s)) else id)
        ((if x = s then List.filter (fun p => decide (p.1 ≠ n)) else id) (g.adj x))
  rw [alookup_aupd, alookup_aupd]
  by_cases hxn : x = n <;> by_cases hxs : x = s
  · rw [if_pos hxn, if_pos hxs, if_pos hxn, if_pos hxs]
    cases h : alookup x g.net <;> simp [Graph.adj, h]
  · rw [if_pos hxn, if_neg hxs, if_pos hxn, if_neg hxs]
    cases h : alookup x g.net <;> simp [Graph.adj, h]
  · rw [if_neg hxn, if_pos hxs, if_neg hxn, if_pos hxs]
    cases h : alookup x g.net <;> simp [Graph.adj, h]
  · rw [if_neg hxn, if_neg hxs, if_neg hxn, if_neg hxs]
    rfl

theorem mem_ite_append {P : Prop} [Decidable P] (l : List (String × Int)) (q yc : String × Int) :
    yc ∈ (if P then (· ++ [q]) else id) l ↔ (yc ∈ l ∨ (P ∧ yc = q)) := by
  split_ifs with h <;> simp [h]

theorem mem_ite_filter {P : Prop} [Decidable P] (s' : String) (l : List (String × Int))
    (yc : String × Int) :
    yc ∈ (if P then List.filter (fun p => decide (p.1 ≠ s')) else id) l ↔
      (yc ∈ l ∧ (P → yc.1 ≠ s')) := by
  split_ifs with h <;> simp [h, List.mem_filter]

theorem mem_adj_add_edge (g : Graph) {s n x y : String} {c w : Int} (hw : w ≠ -1) :
    (y, c) ∈ (g.add_edge s n w).adj x ↔
      ((y, c) ∈ g.adj x ∨ (x = s ∧ y = n ∧ c = w) ∨ (x = n ∧ y = s ∧ c = w)) := by
  rw [adj_add_edge g s n x w hw, mem_ite_append, mem_ite_append]
  simp only [Prod.ext_iff]
  tauto

theorem mem_adj_removeEdge (g : Graph) {s n x y : String} {c : Int} :
    (y, c) ∈ (g.removeEdge s n).adj x ↔
      ((y, c) ∈ g.adj x ∧ ¬(x = s ∧ y = n) ∧ ¬(x = n ∧ y = s)) := by
  rw [adj_removeEdge g s n x, mem_ite_filter, mem_ite_filter]
  show ((y, c) ∈ g.adj x ∧ (x = s → y ≠ n)) ∧ (x = n → y ≠ s) ↔ _
  tauto

theorem symm_empty : Symm Graph.empty := by
  intro a b c
  simp [Graph.adj, Graph.empty, alookup]

theorem symm_add_node {g : Graph} (r : String) (h : Symm g) : Symm (g.add_node r) := by
  intro a b c
  rw [adj_add_node, adj_add_node]
  exact h a b c

theorem symm_add_edge {g : Graph} (s n : String) (w : Int) (h : Symm g) :
    Symm (g.add_edge s n w) := by
  by_cases hw : w = -1
  · unfold Graph.add_edge
    rw [if_pos hw]
    exact h
  · intro a b c
    rw [mem_adj_add_edge g hw, mem_adj_add_edge g hw]
    have hb := h a b c
    tauto

theorem symm_removeEdge {g : Graph} (s n : String) (h : Symm g) : Symm (g.removeEdge s n) := by
  intro a b c
  rw [mem_adj_removeEdge g, mem_adj_removeEdge g]
  have hb := h a b c
  tauto

theorem symm_update_edge {g : Graph} (s n : String) (w : Int) (h : Symm g) :
    Symm (g.update_edge s n w) := by
  unfold Graph.update_edge
  by_cases hw : w = -1
  · rw [if_pos hw]
    exact symm_removeEdge s n h
  · rw [if_neg hw]
    exact symm_add_edge s n w (symm_removeEdge s n h)

theorem symm_applyOps : ∀ (ops : List TopOp) (g : Graph), Symm g → Symm (applyOps g ops) := by
  intro ops
  induction ops with
  | nil => intro g h; exact h
  | cons op rest ih =>
    intro g h
    show Symm (applyOps (applyOp g op) rest)
    refine ih (applyOp g op) ?_
    cases op with
    | addNode r => exact symm_add_node r h
    | addLink a b w => exact symm_add_edge a b w h
    | applyEdit a b w => exact symm_update_edge a b w h

/-- Claim C9: after any sequence of addRouter, addLink, and applyEdit
operations (removeLink being the `-1` sentinel of applyEdit) starting
from the empty graph, the adjacency is mirrored: `(b, c)` is stored under
`a` exactly when `(a, c)` is stored under `b`; and a further addLink with
a non-sentinel weight installs the entry in both endpoint neighbor sets
with the same cost. -/
theorem claim_C9 (ops : List TopOp) (a b : String) (w : Int) (hw : w ≠ -1) :
    Symm (applyOps Graph.empty ops) ∧
      ((b, w) ∈ ((applyOps Graph.empty ops).add_edge a b w).adj a ∧
        (a, w) ∈ ((applyOps Graph.empty ops).add_edge a b w).adj b) := by
  refine ⟨symm_applyOps ops Graph.empty symm_empty, ?_, ?_⟩
  · rw [mem_adj_add_edge _ hw]
    exact Or.inr (Or.inl ⟨rfl, rfl, rfl⟩)
  · rw [mem_adj_add_edge _ hw]
    exact Or.inr (Or.inr ⟨rfl, rfl, rfl⟩)

/-- Witness for claim C9: a concrete operation sequence with an add, a
remove, and a re-add, followed by a fresh addLink A-B at cost 3. -/
theorem claim_C9_witness :
    ((3 : Int) ≠ -1) ∧ Symm (applyOps Graph.empty demoOps) ∧
      (("B", (3 : Int)) ∈ ((applyOps Graph.empty demoOps).add_edge "A" "B" 3).adj "A" ∧
        ("A", (3 : Int)) ∈ ((applyOps Graph.empty demoOps).add_edge "A" "B" 3).adj "B") :=
  ⟨by decide, (claim_C9 demoOps "A" "B" 3 (by decide)).1,
    (claim_C9 demoOps "A" "B" 3 (by decide)).2.1,
    (claim_C9 demoOps "A" "B" 3 (by decide)).2.2⟩

/-- Claim C3, failing evaluation: two `add_edge` calls for the same pair
A-B leave two entries for B in the adjacency list of A and two entries
for A in the adjacency list of B.  The code blindly appends instead of
performing the insert-or-upsert the spec requires, which is exactly the
naive duplicate-entry defect the spec directs to fix, so the code, not
the claim, is wrong. -/
theorem claim_C3_bug :
    gdup.adj "A" = [("B", 2), ("B", 3)] ∧ gdup.adj "B" = [("A", 2), ("A", 3)] :=
  ⟨by decide, by decide⟩

/-- Claim C4, counterexample: with router A declared but isolated and no
A-B link stored, removing A-B is not a no-op on the topology: router A is
deleted from the router set by the remove-empty-nodes sweep. -/
theorem claim_C4_counterexample :
    (gIso.update_edge "A" "B" (-1)).net = [] ∧ gIso.net = [("A", [])] ∧
      gIso.update_edge "A" "B" (-1) ≠ gIso :=
  ⟨by decide, by decide, by decide⟩

theorem aupd_eq_self {k : String} {f : List (String × Int) → List (String × Int)} :
    ∀ {l : List (String × List (String × Int))},
      (∀ p ∈ l, p.1 = k → f p.2 = p.2) → aupd k f l = l := by
  intro l
  induction l with
  | nil => intro _; rfl
  | cons p rest ih =>
    intro h
    show (if p.1 = k then (p.1, f p.2) else p) :: aupd k f rest = p :: rest
    rw [ih fun q hq => h q (List.mem_cons_of_mem p hq)]
    by_cases hp : p.1 = k
    · rw [if_pos hp, h p (List.mem_cons_self p rest) hp]
    · rw [if_neg hp]

theorem alookup_mem {k : String} {v : List (String × Int)} :
    ∀ {l : List (String × List (String × Int))}, alookup k l = some v → (k, v) ∈ l := by
  intro l
  induction l with
  | nil => intro h; simp [alookup] at h
  | cons p rest ih =>
    intro h
    by_cases hp : p.1 = k
    · rw [alookup, if_pos hp] at h
      have hv : p.2 = v := Option.some.inj h
      have hkv : (k, v) = p := by rw [← hp, ← hv]
      rw [hkv]
      exact List.mem_cons_self p rest
    · rw [alookup, if_neg hp] at h
      exact List.mem_cons_of_mem p (ih h)

/-- Claim C4, amended: removing a link that is not stored raises no error
and leaves the topology unchanged provided each endpoint, where present
in the dict, stores no entry for the other endpoint and has a nonempty
adjacency list; without the nonemptiness proviso the remove-empty-nodes
sweep of `update_edge` deletes an isolated endpoint from the router set
(see the counterexample). -/
theorem claim_C4_amended (g : Graph) (a b : String) (h : removeNoopPre g a b) :
    g.update_edge a b (-1) = g := by
  obtain ⟨ha, hb⟩ := h
  have hf1 : aupd a (fun l => l.filter fun p => decide (p.1 ≠ b)) g.net = g.net := by
    refine aupd_eq_self fun p hp hpa => ?_
    obtain ⟨hnb, _⟩ := ha p hp hpa
    exact List.filter_eq_self.2 fun q hq => by simpa using hnb q hq
  have hf2 : aupd b (fun l => l.filter fun p => decide (p.1 ≠ a)) g.net = g.net := by
    refine aupd_eq_self fun p hp hpb => ?_
    obtain ⟨hna, _⟩ := hb p hp hpb
    exact List.filter_eq_self.2 fun q hq => by simpa using hna q hq
  have hca : ¬alookup a g.net = some [] := by
    intro hcon
    obtain ⟨_, hne⟩ := ha (a, []) (alookup_mem hcon) rfl
    exact hne rfl
  have hcb : ¬alookup b g.net = some [] := by
    intro hcon
    obtain ⟨_, hne⟩ := hb (b, []) (alookup_mem hcon) rfl
    exact hne rfl
  have hnet2 : aupd b (fun l => l.filter fun p => decide (p.1 ≠ a))
      (aupd a (fun l => l.filter fun p => decide (p.1 ≠ b)) g.net) = g.net := by
    rw [hf1, hf2]
  have hgen : ∀ net2, net2 = g.net →
      (let net3 := if alookup a net2 = some [] then adel a net2 else net2;
       if alookup b net3 = some [] then adel b net3 else net3) = g.net := by
    intro net2 h2
    subst h2
    rw [if_neg hca]
    show (if alookup b g.net = some [] then adel b g.net else g.net) = g.net
    rw [if_neg hcb]
  have h1 : (g.removeEdge a b).net = g.net := hgen _ hnet2
  have hre : g.removeEdge a b = g :=
    calc g.removeEdge a b = Graph.mk (g.removeEdge a b).net := rfl
      _ = Graph.mk g.net := by rw [h1]
      _ = g := rfl
  show (if (-1 : Int) = -1 then g.removeEdge a b else (g.removeEdge a b).add_edge a b (-1)) = g
  rw [if_pos rfl]
  exact hre

/-- Witness for the amended claim C4: removing the absent link A-B from
the one-link graph A-C changes nothing. -/
theorem claim_C4_amended_witness :
    removeNoopPre gAC "A" "B" ∧ gAC.update_edge "A" "B" (-1) = gAC :=
  ⟨⟨by decide, by decide⟩, claim_C4_amended gAC "A" "B" ⟨by decide, by decide⟩⟩

theorem mem_insertStr {x a : String} : ∀ l, x ∈ insertStr a l ↔ x = a ∨ x ∈ l := by
  intro l
  induction l with
  | nil => simp [insertStr]
  | cons b bs ih =>
    by_cases h : strLeb a b = true
    · show x ∈ (if strLeb a b = true then a :: b :: bs else b :: insertStr a bs) ↔ _
      rw [if_pos h]
      simp
    · show x ∈ (if strLeb a b = true then a :: b :: bs else b :: insertStr a bs) ↔ _
      rw [if_neg h]
      simp [ih]
      tauto

theorem mem_sortStrs {x : String} : ∀ l, x ∈ sortStrs l ↔ x ∈ l := by
  intro l
  induction l with
  | nil => simp [sortStrs]
  | cons a rest ih =>
    show x ∈ insertStr a (sortStrs rest) ↔ _
    rw [mem_insertStr]
    simp [ih]

theorem alookup_eq_none_not_mem {x : String} :
    ∀ {l : List (String × List (String × Int))}, alookup x l = none →
      x ∉ l.map Prod.fst := by
  intro l
  induction l with
  | nil => intro _; simp
  | cons p rest ih =>
    intro h
    by_cases hp : p.1 = x
    · rw [alookup, if_pos hp] at h
      simp at h
    · rw [alookup, if_neg hp] at h
      simp only [List.map_cons, List.mem_cons]
      rintro (he | he)
      · exact hp he.symm
      · exact ih h he

theorem not_mem_routersOf_of_alookup_none {g : Graph} {x : String}
    (h : alookup x g.net = none) : x ∉ g.routersOf := by
  rw [Graph.routersOf, mem_sortStrs]
  exact alookup_eq_none_not_mem h

theorem alookup_condDel_self (k : String) (net : List (String × List (String × Int))) :
    alookup k (if alookup k net = some [] then adel k net else net) =
      if alookup k net = some [] then none else alookup k net := by
  by_cases h : alookup k net = some []
  · rw [if_pos h, if_pos h, alookup_adel, if_pos rfl]
  · rw [if_neg h, if_neg h]

/-- Claim C10: a remove edit deletes, besides the link itself, any endpoint
of the edit whose adjacency list is empty afterwards: each endpoint
lookup after the edit is its old filtered list, or absent when that
filtered list is empty (or the router was absent); and a router whose
lookup is absent does not appear in the recomputed sorted router list. -/
theorem claim_C10 (g : Graph) (a b : String) (hab : a ≠ b) :
    (alookup a (g.update_edge a b (-1)).net =
        if (alookup a g.net).map (fun l => l.filter fun p => decide (p.1 ≠ b)) = some []
        then none
        else (alookup a g.net).map (fun l => l.filter fun p => decide (p.1 ≠ b))) ∧
      (alookup b (g.update_edge a b (-1)).net =
        if (alookup b g.net).map (fun l => l.filter fun p => decide (p.1 ≠ a)) = some []
        then none
        else (alookup b g.net).map (fun l => l.filter fun p => decide (p.1 ≠ a))) ∧
      ∀ x, alookup x (g.update_edge a b (-1)).net = none →
        x ∉ (g.update_edge a b (-1)).routersOf := by
  have hue : g.update_edge a b (-1) = g.removeEdge a b := by
    show (if (-1 : Int) = -1 then g.removeEdge a b else _) = g.removeEdge a b
    rw [if_pos rfl]
  have hnet : (g.removeEdge a b).net =
      (let net2 := aupd b (fun l => l.filter fun p => decide (p.1 ≠ a))
        (aupd a (fun l => l.filter fun p => decide (p.1 ≠ b)) g.net)
       let net3 := if alookup a net2 = some [] then adel a net2 else net2
       if alookup b net3 = some [] then adel b net3 else net3) := rfl
  refine ⟨?_, ?_, fun x hx => not_mem_routersOf_of_alookup_none hx⟩
  · rw [hue, hnet]
    rw [alookup_cond_del_other hab, alookup_condDel_self, alookup_aupd, if_neg hab,
      alookup_aupd, if_pos rfl]
  · have hba : ¬b = a := fun hc => hab hc.symm
    rw [hue, hnet]
    rw [alookup_condDel_self, alookup_cond_del_other hba, alookup_aupd, if_pos rfl,
      alookup_aupd, if_neg hba]

/-- Witness for claim C10: removing X-Y from the line topology leaves X
isolated; X is deleted from the dict and from the router list. -/
theorem claim_C10_witness :
    ("X" ≠ "Y") ∧
      ((alookup "X" (g3.update_edge "X" "Y" (-1)).net =
          if (alookup "X" g3.net).map (fun l => l.filter fun p => decide (p.1 ≠ "Y")) = some []
          then none
          else (alookup "X" g3.net).map (fun l => l.filter fun p => decide (p.1 ≠ "Y"))) ∧
        (alookup "Y" (g3.update_edge "X" "Y" (-1)).net =
          if (alookup "Y" g3.net).map (fun l => l.filter fun p => decide (p.1 ≠ "X")) = some []
          then none
          else (alookup "Y" g3.net).map (fun l => l.filter fun p => decide (p.1 ≠ "X"))) ∧
        ∀ x, alookup x (g3.update_edge "X" "Y" (-1)).net = none →
          x ∉ (g3.update_edge "X" "Y" (-1)).routersOf) :=
  ⟨by decide, claim_C10 g3 "X" "Y" (by decide)⟩

/-- Claim C5, counterexample: in the spec edit scenario (line X-Y-Z, then
new link X-Z at cost 1), the prior run converges with the best route
(Y, 1) for (X, Y); carryOverState per the spec words would seed the
second run with that record, but the fresh `initMC` seed that
`distance_vector` actually starts from has `None` there: nothing is
carried over. -/
theorem claim_C5_counterexample :
    initMC (applyUpdates g3 g3edit).routersOf "X" "Y" = none ∧
      carryOverState_specModel g3.routersOf (applyUpdates g3 g3edit).routersOf
        (distance_vector g3).mc "X" "Y" = some ("Y", Cost.fin 1) ∧
      (distance_vector g3).mc "X" "Y" = some ("Y", Cost.fin 1) :=
  ⟨by decide, by decide, by decide⟩

/-- Claim C5, amended: after a batch of topology edits, `main` reruns
`distance_vector` on the updated graph from a cold start: the second run
is exactly `distance_vector` of the edited graph, and its initial
best-route seed has every off-diagonal record `None`, so no prior
best-route or DistanceTable state is carried over. -/
theorem claim_C5_amended (g : Graph) (edits : List (String × String × Int)) (r d : String)
    (hrd : r ≠ d) :
    mainSecondRun g edits = distance_vector (applyUpdates g edits) ∧
      initMC (applyUpdates g edits).routersOf r d = none := by
  refine ⟨rfl, ?_⟩
  show (if r ∈ (applyUpdates g edits).routersOf ∧ d = r then some (r, Cost.fin 0) else none) =
    none
  rw [if_neg]
  rintro ⟨_, hc⟩
  exact hrd hc.symm

/-- Witness for the amended claim C5 at the spec edit scenario. -/
theorem claim_C5_amended_witness :
    ("X" ≠ "Y") ∧
      (mainSecondRun g3 g3edit = distance_vector (applyUpdates g3 g3edit) ∧
        initMC (applyUpdates g3 g3edit).routersOf "X" "Y" = none) :=
  ⟨by decide, claim_C5_amended g3 g3edit "X" "Y" (by decide)⟩
